import Mathlib

/-!
Verification of the pairing and reconciliation logic of
src/course_admin.py.

The embedding models the two logic-bearing parts of the program:

* the pairing engine: create_random_pairings builds pairs with
  more_itertools.grouper(emails, 2, filler), which groups the shuffled
  key list into consecutive pairs via zip_longest and pads a trailing
  incomplete group with the fill value (the default fill value is
  Python None);
* the reconciliation engine: find_pair_match scans the pairings and
  returns the partner of the first pairing containing the query (or
  Python None when no pairing contains it), and return_reviewed_notebooks
  computes the set of "unhappy" members as the set of all identifiers
  occurring in the pairings minus the set of partners of truthy matches
  of responded members.

Python values that can occur inside a pairing are either a string or
Python None; they are modelled by Option String, with none standing for
Python None.  Since find_pair_match signals "no match" with the same
Python None, its Lean counterpart returns a plain PyVal whose none value
covers both outcomes, exactly as in the source.

random.shuffle permutes the list of dict keys in place; the theorems
therefore quantify over an arbitrary ordering of the key list (the keys
of a dict are pairwise distinct, which appears as a Nodup hypothesis).

JSON persistence (json_dump_pairings / json_load_pairings) is modelled
at the document level: the file contents are either absent (missing
file), present but not JSON (malformed), or a JSON array of arrays of
scalars.  Python json.dump serialises both tuples and lists as JSON
arrays and json.load always materialises JSON arrays as Python lists,
so the row type distinguishes tuple rows from list rows, mirroring
Python equality, under which a tuple never equals a list.
-/

/-- A Python value occurring in a pairing: a string or Python None. -/
abbrev PyVal := Option String

/-- Python truthiness of such a value: None and the empty string are falsy. -/
def truthy : PyVal → Bool
  | none => false
  | some s => !(s == "")

/-- more_itertools.grouper(xs, 2, filler): consecutive pairs, the last
group padded with the fill value when the input length is odd. -/
def grouper2 (filler : PyVal) : List PyVal → List (PyVal × PyVal)
  | [] => []
  | [x] => [(x, filler)]
  | x :: y :: rest => (x, y) :: grouper2 filler rest

/-- create_random_pairings (src/course_admin.py:181): shuffles the keys of
the submissions dict and groups them with grouper.  The shuffled key
order is passed explicitly, making the random source an argument. -/
def create_random_pairings (shuffled : List PyVal) (filler : PyVal) :
    List (PyVal × PyVal) :=
  grouper2 filler shuffled

/-- find_pair_match (src/course_admin.py:195): scan the pairings and
return the partner of the first pairing containing email_a; the bare
return at the end yields Python None, i.e. none. -/
def find_pair_match (email_a : PyVal) : List (PyVal × PyVal) → PyVal
  | [] => none
  | (pers_a, pers_b) :: rest =>
    if pers_a = email_a then pers_b
    else if pers_b = email_a then pers_a
    else find_pair_match email_a rest

/-- The members_receiving_emails list built by the loop of
return_reviewed_notebooks (src/course_admin.py:105): for each responded
member whose match is truthy, the match is appended. -/
def members_receiving_emails (responded : List PyVal)
    (pairings : List (PyVal × PyVal)) : List PyVal :=
  responded.filterMap (fun member =>
    if truthy (find_pair_match member pairings) then
      some (find_pair_match member pairings) else none)

/-- The no_matches list built by the same loop (src/course_admin.py:104):
responded members whose match is falsy are appended to it and skipped.
The source never reads this list again after building it. -/
def no_matches (responded : List PyVal)
    (pairings : List (PyVal × PyVal)) : List PyVal :=
  responded.filter (fun member => !truthy (find_pair_match member pairings))

/-- The list comprehension of src/course_admin.py:118: every element of
every pairing, in order. -/
def allMembersList : List (PyVal × PyVal) → List PyVal
  | [] => []
  | p :: rest => p.1 :: p.2 :: allMembersList rest

/-- all_members (src/course_admin.py:118): the set of all identifiers
occurring in the pairings. -/
def all_members (pairings : List (PyVal × PyVal)) : Finset PyVal :=
  (allMembersList pairings).toFinset

/-- unhappy_members (src/course_admin.py:120): all members minus the set
of members who received a forwarded review; this is the value printed
and returned by return_reviewed_notebooks. -/
def unhappy_members (responded : List PyVal)
    (pairings : List (PyVal × PyVal)) : Finset PyVal :=
  all_members pairings \ (members_receiving_emails responded pairings).toFinset

/-- Whether a pairing contains the value x in either component. -/
def pairHas (x : PyVal) (p : PyVal × PyVal) : Bool :=
  decide (p.1 = x ∨ p.2 = x)

/-- A JSON scalar as it occurs in the persisted pairings file: null or a
string. -/
inductive JScalar
  | jnull
  | jstr (s : String)
deriving DecidableEq

/-- The JSON document shape written by json_dump_pairings: an array of
arrays of scalars. -/
abbrev JDoc := List (List JScalar)

/-- A Python sequence-of-two row as it occurs in a pairings value: either
a tuple (as produced by more_itertools.grouper) or a list (as produced
by json.load).  Python equality never identifies a tuple with a list,
which Lean equality on this type mirrors. -/
inductive PyRow
  | asTuple (a b : PyVal)
  | asList (elems : List PyVal)
deriving DecidableEq

/-- A Python pairings value as handled by the persistence functions. -/
abbrev PyPartition := List PyRow

/-- The exceptions the source can raise while loading the pairings file:
open raises FileNotFoundError for a missing file and json.load raises
json.JSONDecodeError for malformed contents.  The persistenceError
constructor stands for the distinct PersistenceError type named by the
specification; the source defines no such type, and the model includes
the constructor only so that statements about it can be made. -/
inductive PyError
  | fileNotFoundError
  | jsonDecodeError
  | persistenceError
deriving DecidableEq

/-- JSON encoding of a pairing element. -/
def scalar_of_val : PyVal → JScalar
  | none => .jnull
  | some s => .jstr s

/-- JSON decoding of a pairing element. -/
def val_of_scalar : JScalar → PyVal
  | .jnull => none
  | .jstr s => some s

/-- json.dump on one row: tuples and lists both serialise to arrays. -/
def row_to_json : PyRow → List JScalar
  | .asTuple a b => [scalar_of_val a, scalar_of_val b]
  | .asList xs => xs.map scalar_of_val

/-- json.load on one array: arrays always materialise as Python lists. -/
def row_of_json (arr : List JScalar) : PyRow :=
  .asList (arr.map val_of_scalar)

/-- json_dump_pairings (src/course_admin.py:210): the document written to
the file is the JSON serialisation of the pairings value. -/
def json_dump_pairings (pairings : PyPartition) : JDoc :=
  pairings.map row_to_json

/-- json_load_pairings (src/course_admin.py:219).  The file argument
models the state of the persisted file: none is a missing file (open
raises FileNotFoundError), some none is a present file with malformed
contents (json.load raises json.JSONDecodeError), and some (some doc)
is a well-formed pairings document, returned parsed. -/
def json_load_pairings (file : Option (Option JDoc)) :
    Except PyError PyPartition :=
  match file with
  | none => .error .fileNotFoundError
  | some none => .error .jsonDecodeError
  | some (some doc) => .ok (doc.map row_of_json)

/-- The pairings value create_random_pairings hands to
json_dump_pairings: a Python list of tuples. -/
def pairings_as_py (l : List (PyVal × PyVal)) : PyPartition :=
  l.map (fun p => PyRow.asTuple p.1 p.2)

/-- The same pairing content with every row a Python list, the shape
json.load produces. -/
def pairings_as_py_lists (l : List (PyVal × PyVal)) : PyPartition :=
  l.map (fun p => PyRow.asList [p.1, p.2])

/-- Replacing each tuple row by the list row with the same elements. -/
def listify_row : PyRow → PyRow
  | .asTuple a b => .asList [a, b]
  | .asList xs => .asList xs

/-- Whether a row is a Python list (rather than a tuple). -/
def is_list_row : PyRow → Bool
  | .asTuple _ _ => false
  | .asList _ => true

/-- Induction on a list two elements at a time, matching the recursion
pattern of grouper2. -/
def twoStepInduction {α : Type _} {motive : List α → Sort _}
    (h0 : motive []) (h1 : ∀ x, motive [x])
    (h2 : ∀ x y rest, motive rest → motive (x :: y :: rest)) :
    ∀ l, motive l
  | [] => h0
  | [x] => h1 x
  | x :: y :: rest => h2 x y rest (twoStepInduction h0 h1 h2 rest)

theorem grouper2_length_even (f : PyVal) :
    ∀ l : List PyVal, l.length % 2 = 0 →
      (grouper2 f l).length = l.length / 2 := by
  intro l
  induction l using twoStepInduction with
  | h0 => intro _; rfl
  | h1 x => intro h; simp at h
  | h2 a b rest ih =>
    intro h
    have hr : rest.length % 2 = 0 := by
      simp only [List.length_cons] at h; omega
    simp only [grouper2, List.length_cons, ih hr]
    omega

theorem grouper2_mem_even (f : PyVal) :
    ∀ l : List PyVal, l.length % 2 = 0 →
      ∀ p ∈ grouper2 f l, p.1 ∈ l ∧ p.2 ∈ l := by
  intro l
  induction l using twoStepInduction with
  | h0 => intro _ p hp; simp [grouper2] at hp
  | h1 x => intro h; simp at h
  | h2 a b rest ih =>
    intro h p hp
    have hr : rest.length % 2 = 0 := by
      simp only [List.length_cons] at h; omega
    simp only [grouper2, List.mem_cons] at hp
    rcases hp with rfl | hp
    · constructor <;> simp
    · have hmem := ih hr p hp
      exact ⟨by simp [hmem.1], by simp [hmem.2]⟩

theorem grouper2_countP_eq_zero (f x : PyVal) (l : List PyVal)
    (heven : l.length % 2 = 0) (hx : x ∉ l) :
    (grouper2 f l).countP (pairHas x) = 0 := by
  rw [List.countP_eq_zero]
  intro p hp hpx
  have hmem := grouper2_mem_even f l heven p hp
  simp only [pairHas, decide_eq_true_eq] at hpx
  rcases hpx with h1 | h2
  · exact hx (h1 ▸ hmem.1)
  · exact hx (h2 ▸ hmem.2)

theorem grouper2_countP_eq_one (f : PyVal) :
    ∀ l : List PyVal, l.length % 2 = 0 → l.Nodup →
      ∀ x ∈ l, (grouper2 f l).countP (pairHas x) = 1 := by
  intro l
  induction l using twoStepInduction with
  | h0 => intro _ _ x hx; simp at hx
  | h1 x => intro h; simp at h
  | h2 a b rest ih =>
    intro h hnd x hx
    have hr : rest.length % 2 = 0 := by
      simp only [List.length_cons] at h; omega
    obtain ⟨ha1, hnd1⟩ := List.nodup_cons.mp hnd
    obtain ⟨hb1, hndr⟩ := List.nodup_cons.mp hnd1
    have ha : a ∉ rest := fun hh => ha1 (List.mem_cons_of_mem _ hh)
    show ((a, b) :: grouper2 f rest).countP (pairHas x) = 1
    rw [List.countP_cons]
    rcases List.mem_cons.mp hx with rfl | hx1
    · rw [grouper2_countP_eq_zero f x rest hr ha]
      simp [pairHas]
    · rcases List.mem_cons.mp hx1 with rfl | hx2
      · rw [grouper2_countP_eq_zero f x rest hr hb1]
        simp [pairHas]
      · have hax : a ≠ x := fun hh => ha (hh ▸ hx2)
        have hbx : b ≠ x := fun hh => hb1 (hh ▸ hx2)
        rw [ih hr hndr x hx2]
        simp [pairHas, hax, hbx]

theorem grouper2_ne_self (f : PyVal) :
    ∀ l : List PyVal, l.length % 2 = 0 → l.Nodup →
      ∀ p ∈ grouper2 f l, p.1 ≠ p.2 := by
  intro l
  induction l using twoStepInduction with
  | h0 => intro _ _ p hp; simp [grouper2] at hp
  | h1 x => intro h; simp at h
  | h2 a b rest ih =>
    intro h hnd p hp
    have hr : rest.length % 2 = 0 := by
      simp only [List.length_cons] at h; omega
    obtain ⟨ha1, hnd1⟩ := List.nodup_cons.mp hnd
    obtain ⟨hb1, hndr⟩ := List.nodup_cons.mp hnd1
    simp only [grouper2, List.mem_cons] at hp
    rcases hp with rfl | hp
    · exact fun hh => ha1 (List.mem_cons.mpr (Or.inl hh))
    · exact ih hr hndr p hp

theorem grouper2_append_singleton (f x : PyVal) :
    ∀ l : List PyVal, l.length % 2 = 0 →
      grouper2 f (l ++ [x]) = grouper2 f l ++ [(x, f)] := by
  intro l
  induction l using twoStepInduction with
  | h0 => intro _; rfl
  | h1 y => intro h; simp at h
  | h2 a b rest ih =>
    intro h
    have hr : rest.length % 2 = 0 := by
      simp only [List.length_cons] at h; omega
    show (a, b) :: grouper2 f (rest ++ [x]) =
      ((a, b) :: grouper2 f rest) ++ [(x, f)]
    rw [ih hr]
    rfl

theorem grouper2_odd_eq (f : PyVal) (l : List PyVal) (hne : l ≠ [])
    (hodd : l.length % 2 = 1) :
    grouper2 f l = grouper2 f l.dropLast ++ [(l.getLast hne, f)] := by
  have hdrop : l.dropLast.length % 2 = 0 := by
    rw [List.length_dropLast]; omega
  conv_lhs => rw [← List.dropLast_append_getLast hne]
  exact grouper2_append_singleton f (l.getLast hne) l.dropLast hdrop

theorem find_pair_match_first :
    ∀ (P : List (PyVal × PyVal)) (a b : PyVal),
      P.countP (pairHas a) = 1 → (a, b) ∈ P → find_pair_match a P = b := by
  intro P
  induction P with
  | nil => intro a b _ hab; simp at hab
  | cons hd tl ih =>
    intro a b hcount hab
    obtain ⟨pa, pb⟩ := hd
    rcases List.mem_cons.mp hab with heq | htl
    · rw [show (pa, pb) = (a, b) from heq.symm]
      simp [find_pair_match]
    · have hpos : 0 < tl.countP (pairHas a) :=
        List.countP_pos_iff.mpr ⟨(a, b), htl, by simp [pairHas]⟩
      rw [List.countP_cons] at hcount
      by_cases hpa : pairHas a (pa, pb) = true
      · rw [if_pos hpa] at hcount
        omega
      · rw [if_neg hpa] at hcount
        simp [pairHas, not_or] at hpa
        obtain ⟨h1, h2⟩ := hpa
        have hstep : find_pair_match a ((pa, pb) :: tl) = find_pair_match a tl := by
          simp [find_pair_match, h1, h2]
        rw [hstep]
        exact ih a b (by omega) htl

theorem find_pair_match_second :
    ∀ (P : List (PyVal × PyVal)) (a b : PyVal),
      P.countP (pairHas b) = 1 → (a, b) ∈ P → a ≠ b →
      find_pair_match b P = a := by
  intro P
  induction P with
  | nil => intro a b _ hab _; simp at hab
  | cons hd tl ih =>
    intro a b hcount hab hne
    obtain ⟨pa, pb⟩ := hd
    rcases List.mem_cons.mp hab with heq | htl
    · rw [show (pa, pb) = (a, b) from heq.symm]
      simp [find_pair_match, hne]
    · have hpos : 0 < tl.countP (pairHas b) :=
        List.countP_pos_iff.mpr ⟨(a, b), htl, by simp [pairHas]⟩
      rw [List.countP_cons] at hcount
      by_cases hpb : pairHas b (pa, pb) = true
      · rw [if_pos hpb] at hcount
        omega
      · rw [if_neg hpb] at hcount
        simp [pairHas, not_or] at hpb
        obtain ⟨h1, h2⟩ := hpb
        have hstep : find_pair_match b ((pa, pb) :: tl) = find_pair_match b tl := by
          simp [find_pair_match, h1, h2]
        rw [hstep]
        exact ih a b (by omega) htl hne

theorem find_pair_match_not_mem :
    ∀ (P : List (PyVal × PyVal)) (x : PyVal),
      (∀ p ∈ P, p.1 ≠ x ∧ p.2 ≠ x) → find_pair_match x P = none := by
  intro P
  induction P with
  | nil => intro x _; rfl
  | cons hd tl ih =>
    intro x hall
    obtain ⟨pa, pb⟩ := hd
    have hh := hall (pa, pb) (List.mem_cons_self _ _)
    have hstep : find_pair_match x ((pa, pb) :: tl) = find_pair_match x tl := by
      simp [find_pair_match, hh.1, hh.2]
    rw [hstep]
    exact ih x (fun p hp => hall p (List.mem_cons_of_mem _ hp))

theorem find_pair_match_found :
    ∀ (P : List (PyVal × PyVal)) (m v : PyVal),
      find_pair_match m P = v → v ≠ none →
      ∃ p ∈ P, (p.1 = m ∧ p.2 = v) ∨ (p.2 = m ∧ p.1 = v) := by
  intro P
  induction P with
  | nil =>
    intro m v hv hne
    exact absurd ((show find_pair_match m [] = none from rfl) ▸ hv).symm hne
  | cons hd tl ih =>
    intro m v hv hne
    obtain ⟨pa, pb⟩ := hd
    by_cases h1 : pa = m
    · refine ⟨(pa, pb), List.mem_cons_self _ _, Or.inl ⟨h1, ?_⟩⟩
      simpa [find_pair_match, h1] using hv
    · by_cases h2 : pb = m
      · refine ⟨(pa, pb), List.mem_cons_self _ _, Or.inr ⟨h2, ?_⟩⟩
        simpa [find_pair_match, h1, h2] using hv
      · have hv2 : find_pair_match m tl = v := by
          simpa [find_pair_match, h1, h2] using hv
        obtain ⟨p, hp, hcase⟩ := ih m v hv2 hne
        exact ⟨p, List.mem_cons_of_mem _ hp, hcase⟩

theorem mem_allMembersList :
    ∀ (P : List (PyVal × PyVal)) (x : PyVal),
      x ∈ allMembersList P ↔ ∃ p ∈ P, p.1 = x ∨ p.2 = x := by
  intro P
  induction P with
  | nil => intro x; simp [allMembersList]
  | cons hd tl ih =>
    intro x
    simp only [allMembersList, List.mem_cons, ih]
    constructor
    · rintro (rfl | rfl | ⟨p, hp, hx⟩)
      · exact ⟨hd, Or.inl rfl, Or.inl rfl⟩
      · exact ⟨hd, Or.inl rfl, Or.inr rfl⟩
      · exact ⟨p, Or.inr hp, hx⟩
    · rintro ⟨p, rfl | hp, hx⟩
      · rcases hx with h | h
        · exact Or.inl h.symm
        · exact Or.inr (Or.inl h.symm)
      · exact Or.inr (Or.inr ⟨p, hp, hx⟩)

theorem truthy_ne_none {v : PyVal} (h : truthy v = true) : v ≠ none := by
  intro hn
  rw [hn] at h
  simp [truthy] at h

theorem mem_members_receiving_iff
    (responded : List PyVal) (P : List (PyVal × PyVal))
    (huniq : ∀ x ∈ allMembersList P, P.countP (pairHas x) = 1)
    (hneq : ∀ p ∈ P, p.1 ≠ p.2)
    (hident : ∀ p ∈ P, truthy p.1 = true ∧ truthy p.2 = true)
    (x : PyVal) :
    x ∈ members_receiving_emails responded P ↔
      (x ∈ allMembersList P ∧ find_pair_match x P ∈ responded) := by
  constructor
  · intro hx
    simp only [members_receiving_emails, List.mem_filterMap] at hx
    obtain ⟨m, hm, hsome⟩ := hx
    by_cases ht : truthy (find_pair_match m P) = true
    · rw [if_pos ht] at hsome
      have hfx : find_pair_match m P = x := Option.some.inj hsome
      have hxne : x ≠ none := truthy_ne_none (hfx ▸ ht)
      obtain ⟨p, hp, hcase⟩ := find_pair_match_found P m x hfx hxne
      obtain ⟨p1, p2⟩ := p
      rcases hcase with ⟨hq1, hq2⟩ | ⟨hq1, hq2⟩
      · have hpp : (p1, p2) = (m, x) := by
          rw [Prod.mk.injEq]; exact ⟨hq1, hq2⟩
        rw [hpp] at hp
        have hxm : x ∈ allMembersList P :=
          (mem_allMembersList P x).mpr ⟨(m, x), hp, Or.inr rfl⟩
        have hsym : find_pair_match x P = m :=
          find_pair_match_second P m x (huniq x hxm) hp (hneq (m, x) hp)
        exact ⟨hxm, hsym ▸ hm⟩
      · have hpp : (p1, p2) = (x, m) := by
          rw [Prod.mk.injEq]; exact ⟨hq2, hq1⟩
        rw [hpp] at hp
        have hxm : x ∈ allMembersList P :=
          (mem_allMembersList P x).mpr ⟨(x, m), hp, Or.inl rfl⟩
        have hsym : find_pair_match x P = m :=
          find_pair_match_first P x m (huniq x hxm) hp
        exact ⟨hxm, hsym ▸ hm⟩
    · rw [if_neg ht] at hsome
      simp at hsome
  · rintro ⟨hxmem, hresp⟩
    obtain ⟨p, hp, hcase⟩ := (mem_allMembersList P x).mp hxmem
    obtain ⟨p1, p2⟩ := p
    simp only [members_receiving_emails, List.mem_filterMap]
    rcases hcase with h | h
    · simp only at h
      subst h
      have hp2mem : p2 ∈ allMembersList P :=
        (mem_allMembersList P p2).mpr ⟨(p1, p2), hp, Or.inr rfl⟩
      have hfx : find_pair_match p1 P = p2 :=
        find_pair_match_first P p1 p2 (huniq p1 hxmem) hp
      have hback : find_pair_match p2 P = p1 :=
        find_pair_match_second P p1 p2 (huniq p2 hp2mem) hp (hneq (p1, p2) hp)
      refine ⟨p2, ?_, ?_⟩
      · rwa [hfx] at hresp
      · rw [hback, if_pos ((hident (p1, p2) hp).1)]
    · simp only at h
      subst h
      have hp1mem : p1 ∈ allMembersList P :=
        (mem_allMembersList P p1).mpr ⟨(p1, p2), hp, Or.inl rfl⟩
      have hfx : find_pair_match p2 P = p1 :=
        find_pair_match_second P p1 p2 (huniq p2 hxmem) hp (hneq (p1, p2) hp)
      have hback : find_pair_match p1 P = p2 :=
        find_pair_match_first P p1 p2 (huniq p1 hp1mem) hp
      refine ⟨p1, ?_, ?_⟩
      · rwa [hfx] at hresp
      · rw [hback, if_pos ((hident (p1, p2) hp).2)]

theorem val_of_scalar_of_val (v : PyVal) :
    val_of_scalar (scalar_of_val v) = v := by
  cases v <;> rfl

theorem row_roundtrip (r : PyRow) :
    row_of_json (row_to_json r) = listify_row r := by
  cases r with
  | asTuple a b =>
    simp [row_to_json, row_of_json, listify_row, val_of_scalar_of_val]
  | asList xs =>
    show PyRow.asList ((xs.map scalar_of_val).map val_of_scalar) =
      PyRow.asList xs
    rw [List.map_map]
    congr 1
    induction xs with
    | nil => rfl
    | cons v vs ih =>
      simp only [List.map_cons, Function.comp_apply, val_of_scalar_of_val, ih]

theorem json_roundtrip_listify (P : PyPartition) :
    json_load_pairings (some (some (json_dump_pairings P))) =
      Except.ok ((P.map row_to_json).map row_of_json) := rfl

theorem json_roundtrip_eq_listify (P : PyPartition) :
    json_load_pairings (some (some (json_dump_pairings P))) =
      Except.ok (P.map listify_row) := by
  rw [json_roundtrip_listify, List.map_map]
  congr 1
  induction P with
  | nil => rfl
  | cons r rs ih =>
    simp only [List.map_cons, Function.comp_apply, row_roundtrip r, ih]

theorem listify_row_of_list (r : PyRow) (h : is_list_row r = true) :
    listify_row r = r := by
  cases r with
  | asTuple a b => simp [is_list_row] at h
  | asList xs => rfl

theorem map_listify_of_lists (P : PyPartition)
    (hall : ∀ r ∈ P, is_list_row r = true) :
    P.map listify_row = P := by
  induction P with
  | nil => rfl
  | cons r rs ih =>
    have h1 := listify_row_of_list r (hall r (List.mem_cons_self _ _))
    have h2 := ih (fun q hq => hall q (List.mem_cons_of_mem _ hq))
    simp [h1, h2]

example : create_random_pairings [some "a", some "b", some "c"] none =
    [(some "a", some "b"), (some "c", none)] := by decide

example : find_pair_match (some "c")
    [(some "a", some "b"), (some "c", some "d")] = some "d" := by decide

example : unhappy_members [some "b", some "c"]
    [(some "a", some "b"), (some "c", some "d")] =
    {some "b", some "c"} := by decide

example :
    json_load_pairings (some (some (json_dump_pairings
      (pairings_as_py [(some "a", some "b")])))) =
    Except.ok [PyRow.asList [some "a", some "b"]] := rfl

/-- A sample shuffled key list of even size used in concrete checks. -/
def sampleEven : List PyVal := [some "a", some "b", some "c", some "d"]

/-- A sample shuffled key list of odd size used in concrete checks. -/
def sampleOdd : List PyVal := [some "a", some "b", some "c"]

/-- C1: For every set S of identifiers of even size n (modelled as an
arbitrary duplicate-free ordering of S, covering every outcome of the
shuffle), create_random_pairings(S, None) returns exactly n/2 pairs,
every element of S occurs in exactly one returned pair, and no returned
pair has its first element equal to its second element. -/
theorem create_random_pairings_even_spec
    (l : List PyVal) (hnd : l.Nodup) (heven : l.length % 2 = 0) :
    (create_random_pairings l none).length = l.length / 2 ∧
    (∀ x ∈ l, (create_random_pairings l none).countP (pairHas x) = 1) ∧
    (∀ p ∈ create_random_pairings l none, p.1 ≠ p.2) :=
  ⟨grouper2_length_even none l heven,
   fun x hx => grouper2_countP_eq_one none l heven hnd x hx,
   fun p hp => grouper2_ne_self none l heven hnd p hp⟩

/-- Witness for C1 at the concrete even-size input sampleEven. -/
theorem create_random_pairings_even_spec_holds :
    sampleEven.Nodup ∧ sampleEven.length % 2 = 0 ∧
    ((create_random_pairings sampleEven none).length = sampleEven.length / 2 ∧
     (∀ x ∈ sampleEven,
        (create_random_pairings sampleEven none).countP (pairHas x) = 1) ∧
     (∀ p ∈ create_random_pairings sampleEven none, p.1 ≠ p.2)) :=
  ⟨by decide, by decide,
   create_random_pairings_even_spec sampleEven (by decide) (by decide)⟩

/-- C3 counterexample: on the odd-size input sampleOdd with filler None
the source raises nothing and returns a pairing list whose last pair is
padded with None; no InvalidConfiguration error exists anywhere in the
source. -/
theorem create_random_pairings_odd_none_no_error :
    create_random_pairings sampleOdd none =
      [(some "a", some "b"), (some "c", none)] := by decide

/-- C3 amended: create_random_pairings with filler None on an odd-size
input does not fail; it returns the pairs of the input without its last
element, followed by the last element paired with the default fill value
None. -/
theorem create_random_pairings_odd_default_pad
    (l : List PyVal) (hne : l ≠ []) (hodd : l.length % 2 = 1) :
    create_random_pairings l none =
      create_random_pairings l.dropLast none ++ [(l.getLast hne, none)] :=
  grouper2_odd_eq none l hne hodd

/-- Witness for the amended C3 at the concrete odd-size input sampleOdd. -/
theorem create_random_pairings_odd_default_pad_holds :
    sampleOdd ≠ [] ∧ sampleOdd.length % 2 = 1 ∧
    create_random_pairings sampleOdd none =
      create_random_pairings sampleOdd.dropLast none ++
        [(sampleOdd.getLast (by decide), none)] :=
  ⟨by decide, by decide,
   create_random_pairings_odd_default_pad sampleOdd (by decide) (by decide)⟩

/-- C4: for every identifier list and filler f not among the
identifiers, on an odd-size input exactly one returned pair contains f,
that pair has f as its second element (its first element never equals
f), and every other pair draws both elements from the input; on an
even-size input f appears in no pair. -/
theorem create_random_pairings_filler_spec
    (l : List PyVal) (f : PyVal) (hf : f ∉ l) :
    (l.length % 2 = 1 →
      (create_random_pairings l f).countP (pairHas f) = 1 ∧
      ∀ p ∈ create_random_pairings l f,
        p.1 ≠ f ∧ (p.2 = f ∨ (p.1 ∈ l ∧ p.2 ∈ l))) ∧
    (l.length % 2 = 0 →
      ∀ p ∈ create_random_pairings l f, p.1 ≠ f ∧ p.2 ≠ f) := by
  constructor
  · intro hodd
    have hne : l ≠ [] := by
      intro hnil; rw [hnil] at hodd; simp at hodd
    have hdropeven : l.dropLast.length % 2 = 0 := by
      rw [List.length_dropLast]; omega
    have hdecomp := grouper2_odd_eq f l hne hodd
    constructor
    · rw [create_random_pairings, hdecomp, List.countP_append]
      have hzero : (grouper2 f l.dropLast).countP (pairHas f) = 0 := by
        apply grouper2_countP_eq_zero f f l.dropLast hdropeven
        intro hmem
        exact hf (List.mem_of_mem_dropLast hmem)
      rw [hzero]
      simp [pairHas, List.countP_cons]
    · intro p hp
      rw [create_random_pairings, hdecomp, List.mem_append] at hp
      rcases hp with hp | hp
      · have hmem := grouper2_mem_even f l.dropLast hdropeven p hp
        have h1 : p.1 ∈ l := List.mem_of_mem_dropLast hmem.1
        have h2 : p.2 ∈ l := List.mem_of_mem_dropLast hmem.2
        exact ⟨fun hh => hf (hh ▸ h1), Or.inr ⟨h1, h2⟩⟩
      · rw [List.mem_singleton] at hp
        rw [hp]
        refine ⟨?_, Or.inl rfl⟩
        show l.getLast hne ≠ f
        intro hh
        exact hf (hh ▸ List.getLast_mem hne)
  · intro heven p hp
    have hmem := grouper2_mem_even f l heven p hp
    exact ⟨fun hh => hf (hh ▸ hmem.1), fun hh => hf (hh ▸ hmem.2)⟩

/-- Witness for C4 at the concrete odd-size input sampleOdd with
filler z. -/
theorem create_random_pairings_filler_spec_holds :
    some "z" ∉ sampleOdd ∧ sampleOdd.length % 2 = 1 ∧
    ((create_random_pairings sampleOdd (some "z")).countP
        (pairHas (some "z")) = 1 ∧
     ∀ p ∈ create_random_pairings sampleOdd (some "z"),
       p.1 ≠ some "z" ∧ (p.2 = some "z" ∨ (p.1 ∈ sampleOdd ∧ p.2 ∈ sampleOdd))) :=
  ⟨by decide, by decide,
   (create_random_pairings_filler_spec sampleOdd (some "z") (by decide)).1
     (by decide)⟩

/-- C6: in a partition in which every identifier occurs in exactly one
pairing and no pairing has equal elements, the lookup is symmetric: for
a pairing (a, b), find_pair_match a returns b and find_pair_match b
returns a. -/
theorem find_pair_match_symmetric
    (P : List (PyVal × PyVal))
    (huniq : ∀ x ∈ allMembersList P, P.countP (pairHas x) = 1)
    (hneq : ∀ p ∈ P, p.1 ≠ p.2)
    (a b : PyVal) (hab : (a, b) ∈ P) :
    find_pair_match a P = b ∧ find_pair_match b P = a := by
  have hamem : a ∈ allMembersList P :=
    (mem_allMembersList P a).mpr ⟨(a, b), hab, Or.inl rfl⟩
  have hbmem : b ∈ allMembersList P :=
    (mem_allMembersList P b).mpr ⟨(a, b), hab, Or.inr rfl⟩
  exact ⟨find_pair_match_first P a b (huniq a hamem) hab,
         find_pair_match_second P a b (huniq b hbmem) hab (hneq (a, b) hab)⟩

/-- Witness for C6 at a concrete two-pairing partition. -/
theorem find_pair_match_symmetric_holds :
    find_pair_match (some "c")
        [(some "a", some "b"), (some "c", some "d")] = some "d" ∧
    find_pair_match (some "d")
        [(some "a", some "b"), (some "c", some "d")] = some "c" :=
  find_pair_match_symmetric [(some "a", some "b"), (some "c", some "d")]
    (by decide) (by decide) (some "c") (some "d") (by decide)

/-- C2: over a partition satisfying the Partition invariants of the data
model (every identifier occurs in exactly one pairing, no self-pairing,
identifiers are truthy email strings) and any responded set, the value
returned by return_reviewed_notebooks contains exactly the identifiers
of the partition universe whose partner via find_pair_match is not in
the responded set. -/
theorem unhappy_members_iff_partner_not_responded
    (responded : List PyVal) (P : List (PyVal × PyVal))
    (huniq : ∀ x ∈ allMembersList P, P.countP (pairHas x) = 1)
    (hneq : ∀ p ∈ P, p.1 ≠ p.2)
    (hident : ∀ p ∈ P, truthy p.1 = true ∧ truthy p.2 = true)
    (x : PyVal) :
    x ∈ unhappy_members responded P ↔
      (x ∈ all_members P ∧ find_pair_match x P ∉ responded) := by
  rw [unhappy_members, Finset.mem_sdiff, List.mem_toFinset,
      mem_members_receiving_iff responded P huniq hneq hident x,
      all_members, List.mem_toFinset]
  constructor
  · rintro ⟨h1, h2⟩
    exact ⟨h1, fun hr => h2 ⟨h1, hr⟩⟩
  · rintro ⟨h1, h2⟩
    exact ⟨h1, fun hh => h2 hh.2⟩

/-- Witness for C2 at a concrete partition and responded set. -/
theorem unhappy_members_iff_partner_not_responded_holds :
    (some "c" ∈ unhappy_members [some "b", some "c"]
        [(some "a", some "b"), (some "c", some "d")]) ↔
      (some "c" ∈ all_members [(some "a", some "b"), (some "c", some "d")] ∧
       find_pair_match (some "c") [(some "a", some "b"), (some "c", some "d")]
         ∉ [some "b", some "c"]) :=
  unhappy_members_iff_partner_not_responded [some "b", some "c"]
    [(some "a", some "b"), (some "c", some "d")]
    (by decide) (by decide) (by decide) (some "c")

/-- C5 counterexample: create_random_pairings produces a Python list of
tuples; json.dump writes tuples as JSON arrays and json.load rebuilds
those arrays as Python lists, so the reloaded value is not equal to the
partition value that was dumped. -/
theorem json_roundtrip_tuple_not_equal :
    json_load_pairings (some (some (json_dump_pairings
        (pairings_as_py [(some "a", some "b")])))) ≠
      Except.ok (pairings_as_py [(some "a", some "b")]) := by
  intro h
  have h0 : Except.ok [PyRow.asList [some "a", some "b"]] =
      Except.ok (pairings_as_py [(some "a", some "b")]) := h
  have h1 : [PyRow.asList [some "a", some "b"]] =
      pairings_as_py [(some "a", some "b")] := Except.ok.inj h0
  exact absurd h1 (by decide)

/-- C5 amended: reloading the dumped partition yields the partition with
every tuple row replaced by the list row holding the same elements in
the same order; the round trip is the identity exactly on partitions
whose rows are already lists (such as a value previously produced by
json.load), while a freshly created partition of tuple rows reloads as
the corresponding list rows. -/
theorem json_roundtrip_modulo_listify (P : PyPartition) :
    json_load_pairings (some (some (json_dump_pairings P))) =
      Except.ok (P.map listify_row) ∧
    ((∀ r ∈ P, is_list_row r = true) →
      json_load_pairings (some (some (json_dump_pairings P))) =
        Except.ok P) := by
  refine ⟨json_roundtrip_eq_listify P, fun hall => ?_⟩
  rw [json_roundtrip_eq_listify P, map_listify_of_lists P hall]

/-- Witness for the amended C5 on a concrete list-row partition. -/
theorem json_roundtrip_modulo_listify_holds :
    json_load_pairings (some (some (json_dump_pairings
        [PyRow.asList [some "a", some "b"]]))) =
      Except.ok [PyRow.asList [some "a", some "b"]] :=
  (json_roundtrip_modulo_listify [PyRow.asList [some "a", some "b"]]).2
    (by decide)

/-- C7 (evaluation of the code at the failing input): with pairings
[(a, b)] and responded member c, find_pair_match returns None for c, so
the loop records c in its local no_matches list; but the value printed
and returned by return_reviewed_notebooks is only the unhappy set
{a, b}, in which c appears nowhere, and the no_matches list is dead
after the loop ends. -/
theorem no_matches_not_in_return_value :
    no_matches [some "c"] [(some "a", some "b")] = [some "c"] ∧
    unhappy_members [some "c"] [(some "a", some "b")] =
      {some "a", some "b"} ∧
    some "c" ∉ unhappy_members [some "c"] [(some "a", some "b")] :=
  ⟨by decide, by decide, by decide⟩

/-- C8 counterexample: for the concrete failing input of a missing file,
the error surfaced by json_load_pairings is the builtin
FileNotFoundError, which is not a distinct PersistenceError; the source
defines no PersistenceError type. -/
theorem json_load_pairings_error_not_persistence :
    json_load_pairings none = Except.error PyError.fileNotFoundError ∧
    PyError.fileNotFoundError ≠ PyError.persistenceError :=
  ⟨rfl, by decide⟩

/-- C8 amended: every failing read of the persisted partition surfaces
an error and never yields a partition value: a missing file surfaces
FileNotFoundError, malformed contents surface json.JSONDecodeError, a
well-formed document is returned parsed in full, and no surfaced error
is a distinct PersistenceError, since the source defines none. -/
theorem json_load_pairings_error_spec (file : Option (Option JDoc)) :
    (file = none →
      json_load_pairings file = Except.error PyError.fileNotFoundError) ∧
    (file = some none →
      json_load_pairings file = Except.error PyError.jsonDecodeError) ∧
    (∀ doc, file = some (some doc) →
      json_load_pairings file = Except.ok (doc.map row_of_json)) ∧
    (∀ e, json_load_pairings file = Except.error e →
      e ≠ PyError.persistenceError) := by
  refine ⟨?_, ?_, ?_, ?_⟩
  · rintro rfl; rfl
  · rintro rfl; rfl
  · rintro doc rfl; rfl
  · intro e he
    rcases file with _ | ofile
    · have h1 : PyError.fileNotFoundError = e := Except.error.inj he
      rw [← h1]
      decide
    · rcases ofile with _ | doc
      · have h1 : PyError.jsonDecodeError = e := Except.error.inj he
        rw [← h1]
        decide
      · exact Except.noConfusion he

/-- Witness for the amended C8 at the two concrete failing inputs. -/
theorem json_load_pairings_error_spec_holds :
    json_load_pairings (some none) = Except.error PyError.jsonDecodeError ∧
    json_load_pairings none = Except.error PyError.fileNotFoundError :=
  ⟨(json_load_pairings_error_spec (some none)).2.1 rfl,
   (json_load_pairings_error_spec none).1 rfl⟩

/-- C9: in a partition containing the pairing (a, None), find_pair_match
on a returns None, the very value it returns for an identifier occurring
in no pairing, so the filler-paired member is indistinguishable from an
unknown identifier at the lookup interface; consequently the
reconciliation loop records such a responding member in its no_matches
list. -/
theorem find_pair_match_filler_indistinguishable
    (P : List (PyVal × PyVal)) (a : PyVal)
    (huniq : ∀ x ∈ allMembersList P, P.countP (pairHas x) = 1)
    (ha : (a, none) ∈ P) :
    find_pair_match a P = none ∧
    (∀ x, (∀ p ∈ P, p.1 ≠ x ∧ p.2 ≠ x) → find_pair_match x P = none) ∧
    (∀ responded, a ∈ responded → a ∈ no_matches responded P) := by
  have hamem : a ∈ allMembersList P :=
    (mem_allMembersList P a).mpr ⟨(a, none), ha, Or.inl rfl⟩
  have hfa : find_pair_match a P = none :=
    find_pair_match_first P a none (huniq a hamem) ha
  refine ⟨hfa, fun x hx => find_pair_match_not_mem P x hx, ?_⟩
  intro responded hr
  rw [no_matches, List.mem_filter]
  exact ⟨hr, by rw [hfa]; rfl⟩

/-- Witness for C9 at the concrete partition [(a, None)]. -/
theorem find_pair_match_filler_indistinguishable_holds :
    find_pair_match (some "a") [(some "a", none)] = none ∧
    some "a" ∈ no_matches [some "a"] [(some "a", none)] :=
  ⟨(find_pair_match_filler_indistinguishable [(some "a", none)] (some "a")
      (by decide) (by decide)).1,
   (find_pair_match_filler_indistinguishable [(some "a", none)] (some "a")
      (by decide) (by decide)).2.2 [some "a"] (by decide)⟩

/-- C10: whenever the loaded pairings contain a pairing whose second
element is the null filler and no responding member has a null match,
the returned unhappy set contains the null filler itself: the filler
enters the universe of members exactly like a real identifier and can
never be marked happy. -/
theorem null_filler_in_unhappy_members
    (pairings : List (PyVal × PyVal)) (responded : List PyVal)
    (hfill : ∃ p ∈ pairings, p.2 = none)
    (hresp : ∀ m ∈ responded, find_pair_match m pairings ≠ none) :
    none ∈ unhappy_members responded pairings := by
  rw [unhappy_members, Finset.mem_sdiff]
  constructor
  · rw [all_members, List.mem_toFinset, mem_allMembersList]
    obtain ⟨p, hp, h2⟩ := hfill
    exact ⟨p, hp, Or.inr h2⟩
  · rw [List.mem_toFinset]
    intro hmem
    simp only [members_receiving_emails, List.mem_filterMap] at hmem
    obtain ⟨m, hm, hsome⟩ := hmem
    by_cases ht : truthy (find_pair_match m pairings) = true
    · rw [if_pos ht] at hsome
      have hn := Option.some.inj hsome
      rw [hn] at ht
      simp [truthy] at ht
    · rw [if_neg ht] at hsome
      simp at hsome

/-- Witness for C10 at a concrete loaded pairing list with a null
second element. -/
theorem null_filler_in_unhappy_members_holds :
    (∃ p ∈ ([(some "a", none), (some "b", some "c")] :
        List (PyVal × PyVal)), p.2 = none) ∧
    none ∈ unhappy_members [some "b"]
      [(some "a", none), (some "b", some "c")] :=
  ⟨by decide,
   null_filler_in_unhappy_members [(some "a", none), (some "b", some "c")]
     [some "b"] (by decide) (by decide)⟩
